import Mathlib

/-!
Shallow embedding of the Mandelbrot renderer (src/main.rs) and proofs of the
spec's claims about it.

Modelling conventions:
* `f64` values are embedded as exact rationals (`ℚ`); all arithmetic in the
  program (complex multiplication/addition, `norm_sqr`, the linear pixel
  interpolation) is exact on the inputs that arise, so rational arithmetic is
  the faithful exact-arithmetic reading of the code.
* `usize`/`u32` are embedded as `Nat`; the one `as u8` cast is modelled as
  `% 256`.
* The pixel buffer (`&mut [u8]`) is a `List Nat`; an indexed write is a
  checked update returning `Option`, and the `assert!` in `render` is an
  `if`-guard returning `none` on violation, so `none` models a panic.
* The stateful `skip_while` closure `is_in_range` is embedded as explicit
  state passing: the closure state `z` threads through `skipWhileStateful`.
-/

namespace Mandelbrot

/-- Embedding of `type Point = (usize, usize)` from the source. -/
abbrev Point := Nat × Nat

/-- Embedding of `num::Complex<f64>` with exact-rational components. -/
@[ext]
structure Complex where
  re : ℚ
  im : ℚ
deriving DecidableEq, Repr

/-- Complex addition as in the `num` crate. -/
instance : Add Complex where
  add x y := ⟨x.re + y.re, x.im + y.im⟩

/-- Complex multiplication as in the `num` crate. -/
instance : Mul Complex where
  mul x y := ⟨x.re * y.re - x.im * y.im, x.re * y.im + x.im * y.re⟩

/-- Embedding of `Complex::norm_sqr`: `re*re + im*im`. -/
def Complex.norm_sqr (z : Complex) : ℚ :=
  z.re * z.re + z.im * z.im

/-- The `Corner` struct from the source. -/
structure Corner where
  upper_left : Complex
  lower_right : Complex
deriving DecidableEq, Repr

/-- Embedding of `pixel_to_point` from the source: linear interpolation of a pixel
coordinate into the plane rectangle.  `pixel.1` is the column, `pixel.2` the
row (Rust's `pixel.0` / `pixel.1`). -/
def pixel_to_point (bounds : Point) (corner : Corner) (pixel : Point) : Complex :=
  let width := corner.lower_right.re - corner.upper_left.re
  let height := corner.upper_left.im - corner.lower_right.im
  let re := corner.upper_left.re + ((pixel.1 : ℚ) * width / (bounds.1 : ℚ))
  let im := corner.upper_left.im - ((pixel.2 : ℚ) * height / (bounds.2 : ℚ))
  ⟨re, im⟩

/-- The stateful closure `is_in_range` from the source: one call advances
`z` to `z*z + c` and reports whether `z.norm_sqr() < 4.0`.  The mutable
capture `z` is made explicit: the function maps the prior state to the new
state paired with the returned Bool. -/
def is_in_range (c : Complex) : Complex → Complex × Bool :=
  fun z =>
    let z1 := z * z + c
    (z1, decide (z1.norm_sqr < 4))

/-- Embedding of `Iterator::skip_while` with a stateful predicate that ignores the
element: elements are dropped while the predicate returns `true`; from the
first `false` on, the remaining elements are yielded and the predicate is
not called again. -/
def skipWhileStateful {σ α : Type} (step : σ → σ × Bool) : σ → List α → List α
  | _, [] => []
  | s, a :: rest =>
    match step s with
    | (s1, true) => skipWhileStateful step s1 rest
    | (_, false) => a :: rest

/-- Embedding of `escape_time` from the source:
`(0..limit).skip_while(is_in_range(c)).take(1).last()`. -/
def escape_time (c : Complex) (limit : Nat) : Option Nat :=
  ((skipWhileStateful (is_in_range c) ⟨0, 0⟩ (List.range limit)).take 1).getLast?

/-- The Mandelbrot orbit the spec describes: `z₀ = 0`, `zₙ₊₁ = zₙ*zₙ + c`. -/
def zseq (c : Complex) : Nat → Complex
  | 0 => ⟨0, 0⟩
  | n + 1 => zseq c n * zseq c n + c

/-- Modelled from the spec: the explicit bounded loop the design notes ask
for — iterate `z = z*z + c` at most `fuel` more times, `i` being the current
iteration index, returning `some i` as soon as the squared magnitude reaches
or exceeds 4, else `none`. -/
def loopGo (c : Complex) : Nat → Nat → Complex → Option Nat
  | 0, _, _ => none
  | fuel + 1, i, z =>
    let z1 := z * z + c
    if 4 ≤ z1.norm_sqr then some i else loopGo c fuel (i + 1) z1

/-- Modelled from the spec: the escape-time evaluator re-expressed as an
explicit bounded loop with an early return on escape. -/
def escape_time_loop (c : Complex) (limit : Nat) : Option Nat :=
  loopGo c limit 0 ⟨0, 0⟩

/-- A bounds-checked write into the byte buffer; `none` models the panic of
an out-of-range slice index. -/
def setChecked (l : List Nat) (i : Nat) (v : Nat) : Option (List Nat) :=
  if i < l.length then some (l.set i v) else none

/-- The row-major pixel enumeration from `render`:
`(0..height).flat_map(|row| (0..width).map(move |column| (column, row)))`. -/
def pixelList (width height : Nat) : List Point :=
  (List.range height).flatMap (fun row => (List.range width).map (fun column => (column, row)))

/-- Embedding of `render` from the source.  The `assert!` on the buffer length is the
`if`-guard (its violation, a panic, is `none`); each pixel write is a
checked update at `row * width + column` of
`escape_time(point, limit).map_or(0, |count| (limit - count) as u8)`. -/
def render (pixels : List Nat) (bounds : Point) (corner : Corner) : Option (List Nat) :=
  let width := bounds.1
  let height := bounds.2
  if pixels.length = width * height then
    let limit := 255
    (pixelList width height).foldlM
      (fun px p =>
        setChecked px (p.2 * width + p.1)
          ((escape_time (pixel_to_point bounds corner p) limit).elim 0
            (fun count => (limit - count) % 256)))
      pixels
  else
    none

/-! ### Escape-time lemmas -/

/-- Unfolding lemma: the `skip_while`/`take(1)`/`last()` chain over the
range `[i, i+fuel)` computes exactly the explicit loop `loopGo`. -/
lemma skipWhile_take_last_range' (c : Complex) :
    ∀ (fuel i : Nat) (z : Complex),
      ((skipWhileStateful (is_in_range c) z (List.range' i fuel)).take 1).getLast? =
        loopGo c fuel i z := by
  intro fuel
  induction fuel with
  | zero =>
    intro i z
    simp [skipWhileStateful, loopGo]
  | succ n ih =>
    intro i z
    rw [List.range'_succ]
    by_cases h : (z * z + c).norm_sqr < 4
    · have hb : is_in_range c z = (z * z + c, true) := by
        simp [is_in_range, h]
      rw [skipWhileStateful, hb]
      rw [loopGo]
      simp only [not_le.mpr h, if_false]
      exact ih (i + 1) (z * z + c)
    · have hb : is_in_range c z = (z * z + c, false) := by
        simp [is_in_range, h]
      rw [skipWhileStateful, hb]
      rw [loopGo]
      simp [not_lt.mp h]

/-- Loop characterization: `loopGo` returns `some k` exactly when `k` is the first index at or
after `i` and within fuel whose next orbit element has squared magnitude
at least 4. -/
lemma loopGo_eq_some_iff (c : Complex) :
    ∀ (fuel i k : Nat),
      (loopGo c fuel i (zseq c i) = some k ↔
        (i ≤ k ∧ k < i + fuel ∧ 4 ≤ (zseq c (k + 1)).norm_sqr ∧
          ∀ j, i ≤ j → j < k → (zseq c (j + 1)).norm_sqr < 4)) := by
  intro fuel
  induction fuel with
  | zero =>
    intro i k
    constructor
    · intro h
      simp [loopGo] at h
    · rintro ⟨h1, h2, -, -⟩
      omega
  | succ n ih =>
    intro i k
    have hz : zseq c i * zseq c i + c = zseq c (i + 1) := rfl
    by_cases h : 4 ≤ (zseq c (i + 1)).norm_sqr
    · have hL : loopGo c (n + 1) i (zseq c i) = some i := by
        rw [loopGo]
        simp [hz, h]
      rw [hL]
      constructor
      · intro hsome
        have hk : i = k := by
          simpa using hsome
        subst hk
        exact ⟨le_refl i, by omega, h, fun j hj1 hj2 => by omega⟩
      · rintro ⟨h1, h2, hk, hall⟩
        have hik : k = i := by
          by_contra hne
          have hlt : i < k := lt_of_le_of_ne h1 (fun he => hne he.symm)
          exact absurd h (not_le.mpr (hall i (le_refl i) hlt))
        subst hik
        rfl
    · have hL : loopGo c (n + 1) i (zseq c i) = loopGo c n (i + 1) (zseq c (i + 1)) := by
        rw [loopGo]
        simp [hz, h]
      rw [hL, ih (i + 1) k]
      constructor
      · rintro ⟨h1, h2, hk, hall⟩
        refine ⟨by omega, by omega, hk, ?_⟩
        intro j hj1 hj2
        rcases Nat.eq_or_lt_of_le hj1 with he | hlt
        · subst he
          exact not_le.mp h
        · exact hall j (by omega) hj2
      · rintro ⟨h1, h2, hk, hall⟩
        have hik : i ≠ k := by
          rintro rfl
          exact h hk
        exact ⟨by omega, by omega, hk, fun j hj1 hj2 => hall j (by omega) hj2⟩

/-- Loop characterization: `loopGo` returns `none` exactly when the whole fuel window keeps the
squared magnitude below 4. -/
lemma loopGo_eq_none_iff (c : Complex) :
    ∀ (fuel i : Nat),
      (loopGo c fuel i (zseq c i) = none ↔
        ∀ j, i ≤ j → j < i + fuel → (zseq c (j + 1)).norm_sqr < 4) := by
  intro fuel
  induction fuel with
  | zero =>
    intro i
    constructor
    · intro _ j hj1 hj2
      omega
    · intro _
      rfl
  | succ n ih =>
    intro i
    have hz : zseq c i * zseq c i + c = zseq c (i + 1) := rfl
    by_cases h : 4 ≤ (zseq c (i + 1)).norm_sqr
    · have hL : loopGo c (n + 1) i (zseq c i) = some i := by
        rw [loopGo]
        simp [hz, h]
      rw [hL]
      constructor
      · intro habs
        exact absurd habs (by simp)
      · intro hall
        exact absurd h (not_le.mpr (hall i (le_refl i) (by omega)))
    · have hL : loopGo c (n + 1) i (zseq c i) = loopGo c n (i + 1) (zseq c (i + 1)) := by
        rw [loopGo]
        simp [hz, h]
      rw [hL, ih (i + 1)]
      constructor
      · intro hall j hj1 hj2
        rcases Nat.eq_or_lt_of_le hj1 with he | hlt
        · subst he
          exact not_le.mp h
        · exact hall j (by omega) (by omega)
      · intro hall j hj1 hj2
        exact hall j (by omega) (by omega)

/-- The iterator chain and the explicit loop agree. -/
lemma escape_time_eq_escape_time_loop (c : Complex) (limit : Nat) :
    escape_time c limit = escape_time_loop c limit := by
  unfold escape_time escape_time_loop
  rw [List.range_eq_range']
  exact skipWhile_take_last_range' c limit 0 ⟨0, 0⟩

/-- Characterization: `escape_time` returns `some k` iff `k < limit`, the `(k+1)`-st orbit
element has squared magnitude at least 4, and every earlier one stays
below 4. -/
lemma escape_time_eq_some_iff (c : Complex) (limit k : Nat) :
    escape_time c limit = some k ↔
      (k < limit ∧ 4 ≤ (zseq c (k + 1)).norm_sqr ∧
        ∀ j, j < k → (zseq c (j + 1)).norm_sqr < 4) := by
  rw [escape_time_eq_escape_time_loop]
  unfold escape_time_loop
  have h0 : (⟨0, 0⟩ : Complex) = zseq c 0 := rfl
  rw [h0, loopGo_eq_some_iff c limit 0 k]
  constructor
  · rintro ⟨-, h2, h3, h4⟩
    exact ⟨by omega, h3, fun j hj => h4 j (by omega) hj⟩
  · rintro ⟨h1, h2, h3⟩
    exact ⟨by omega, by omega, h2, fun j _ hj => h3 j hj⟩

/-- Characterization: `escape_time` returns `none` iff all `limit` iterations keep the
squared magnitude strictly below 4. -/
lemma escape_time_eq_none_iff (c : Complex) (limit : Nat) :
    escape_time c limit = none ↔
      ∀ j, j < limit → (zseq c (j + 1)).norm_sqr < 4 := by
  rw [escape_time_eq_escape_time_loop]
  unfold escape_time_loop
  have h0 : (⟨0, 0⟩ : Complex) = zseq c 0 := rfl
  rw [h0, loopGo_eq_none_iff c limit 0]
  constructor
  · intro hall j hj
    exact hall j (by omega) (by omega)
  · intro hall j hj1 hj2
    exact hall j (by omega)

/-- An escape iteration index is always strictly below the limit. -/
lemma escape_time_some_lt (c : Complex) (limit k : Nat)
    (h : escape_time c limit = some k) : k < limit :=
  ((escape_time_eq_some_iff c limit k).mp h).1

/-! ### Component-wise evaluation lemmas -/

lemma Complex.mk_mul_mk (a b x y : ℚ) :
    (⟨a, b⟩ : Complex) * ⟨x, y⟩ = ⟨a * x - b * y, a * y + b * x⟩ := rfl

lemma Complex.mk_add_mk (a b x y : ℚ) :
    (⟨a, b⟩ : Complex) + ⟨x, y⟩ = ⟨a + x, b + y⟩ := rfl

lemma Complex.norm_sqr_mk (a b : ℚ) :
    Complex.norm_sqr ⟨a, b⟩ = a * a + b * b := rfl

lemma zseq_zero (c : Complex) : zseq c 0 = ⟨0, 0⟩ := rfl

lemma zseq_succ (c : Complex) (n : Nat) :
    zseq c (n + 1) = zseq c n * zseq c n + c := rfl

/-- The first orbit element of `c = 3 + 0i` is `3 + 0i` itself. -/
lemma zseq_three_one : zseq ⟨3, 0⟩ 1 = ⟨3, 0⟩ := by
  rw [zseq_succ, zseq_zero, Complex.mk_mul_mk, Complex.mk_add_mk]
  norm_num [Complex.mk.injEq]

/-- The orbit of the origin is constantly the origin. -/
lemma zseq_origin (n : Nat) : zseq ⟨0, 0⟩ n = ⟨0, 0⟩ := by
  induction n with
  | zero => rfl
  | succ m ih =>
    rw [zseq_succ, ih, Complex.mk_mul_mk, Complex.mk_add_mk]
    norm_num [Complex.mk.injEq]

/-- For any positive limit, `c = 3 + 0i` escapes at iteration 0. -/
lemma escape_time_three_pos (limit : Nat) (h : 0 < limit) :
    escape_time ⟨3, 0⟩ limit = some 0 := by
  rw [escape_time_eq_some_iff]
  refine ⟨h, ?_, fun j hj => by omega⟩
  rw [zseq_three_one, Complex.norm_sqr_mk]
  norm_num

lemma pixel_to_point_re (bounds : Point) (corner : Corner) (pixel : Point) :
    (pixel_to_point bounds corner pixel).re =
      corner.upper_left.re +
        ((pixel.1 : ℚ) * (corner.lower_right.re - corner.upper_left.re) /
          (bounds.1 : ℚ)) := rfl

lemma pixel_to_point_im (bounds : Point) (corner : Corner) (pixel : Point) :
    (pixel_to_point bounds corner pixel).im =
      corner.upper_left.im -
        ((pixel.2 : ℚ) * (corner.upper_left.im - corner.lower_right.im) /
          (bounds.2 : ℚ)) := rfl

/-- A concrete valid plane region used to instantiate proved theorems. -/
def corner0 : Corner := ⟨⟨3, 0⟩, ⟨4, -1⟩⟩

/-! ### Buffer-write lemmas -/

lemma getD_set_self (l : List Nat) (j v : Nat) (h : j < l.length) :
    (l.set j v).getD j 0 = v := by
  simp [List.getD_eq_getElem?_getD, List.getElem?_set_self h]

lemma getD_set_ne (l : List Nat) (i j v : Nat) (h : j ≠ i) :
    (l.set j v).getD i 0 = l.getD i 0 := by
  simp [List.getD_eq_getElem?_getD, List.getElem?_set_ne h]

/-- Folding checked writes over a list of in-range indices succeeds,
preserves the length, and the final content at each position is the fold
of the per-element overwrites. -/
lemma foldlM_setChecked_spec {α : Type} (idx val : α → Nat) :
    ∀ (L : List α) (a : List Nat), (∀ p ∈ L, idx p < a.length) →
      ∃ out,
        List.foldlM (fun b p => setChecked b (idx p) (val p)) a L = some out ∧
          out.length = a.length ∧
          ∀ i, out.getD i 0 =
            L.foldl (fun cur p => if idx p = i then val p else cur) (a.getD i 0) := by
  intro L
  induction L with
  | nil =>
    intro a _
    exact ⟨a, rfl, rfl, fun i => rfl⟩
  | cons p L ih =>
    intro a hbound
    have hp : idx p < a.length := hbound p (List.mem_cons_self p L)
    have hstep : setChecked a (idx p) (val p) = some (a.set (idx p) (val p)) := by
      simp [setChecked, hp]
    have hbound1 : ∀ q ∈ L, idx q < (a.set (idx p) (val p)).length := by
      intro q hq
      rw [List.length_set]
      exact hbound q (List.mem_cons_of_mem p hq)
    obtain ⟨out, hfold, hlen, hval⟩ := ih (a.set (idx p) (val p)) hbound1
    refine ⟨out, ?_, by rw [hlen, List.length_set], ?_⟩
    · rw [List.foldlM_cons, hstep]
      exact hfold
    · intro i
      rw [List.foldl_cons, hval i]
      by_cases hpi : idx p = i
      · subst hpi
        rw [if_pos rfl, getD_set_self a (idx p) (val p) hp]
      · rw [if_neg hpi, getD_set_ne a i (idx p) (val p) hpi]

lemma foldl_pick_of_no_match {α : Type} (idx val : α → Nat) (i : Nat) :
    ∀ (L : List α) (x : Nat), (∀ p ∈ L, idx p ≠ i) →
      L.foldl (fun cur p => if idx p = i then val p else cur) x = x := by
  intro L
  induction L with
  | nil =>
    intro x _
    rfl
  | cons p L ih =>
    intro x hall
    rw [List.foldl_cons, if_neg (hall p (List.mem_cons_self p L))]
    exact ih x (fun q hq => hall q (List.mem_cons_of_mem p hq))

/-- If some element of `L` writes index `i` and every element writing `i`
writes the value `v`, the overwrite fold ends at `v`. -/
lemma foldl_pick_eq {α : Type} (idx val : α → Nat) (i v : Nat) :
    ∀ (L : List α) (x : Nat),
      (∃ p ∈ L, idx p = i) → (∀ p ∈ L, idx p = i → val p = v) →
      L.foldl (fun cur p => if idx p = i then val p else cur) x = v := by
  intro L
  induction L with
  | nil =>
    intro x hex _
    obtain ⟨p, hp, -⟩ := hex
    exact absurd hp (List.not_mem_nil p)
  | cons p L ih =>
    intro x hex hval
    rw [List.foldl_cons]
    by_cases hpi : idx p = i
    · by_cases hrest : ∃ q ∈ L, idx q = i
      · exact ih _ hrest (fun q hq hqi => hval q (List.mem_cons_of_mem p hq) hqi)
      · push_neg at hrest
        rw [if_pos hpi, foldl_pick_of_no_match idx val i L (val p) hrest]
        exact hval p (List.mem_cons_self p L) hpi
    · rw [if_neg hpi]
      apply ih
      · obtain ⟨q, hq, hqi⟩ := hex
        rcases List.mem_cons.mp hq with he | hq1
        · exact absurd (he ▸ hqi) hpi
        · exact ⟨q, hq1, hqi⟩
      · exact fun q hq hqi => hval q (List.mem_cons_of_mem p hq) hqi

/-- A pixel pair is enumerated by `render`'s iterator exactly when it is
inside the bounds. -/
lemma mem_pixelList_iff (width height : Nat) (q : Point) :
    q ∈ pixelList width height ↔ q.1 < width ∧ q.2 < height := by
  obtain ⟨col, row⟩ := q
  simp only [pixelList, List.mem_flatMap, List.mem_map, List.mem_range, Prod.mk.injEq]
  constructor
  · rintro ⟨r, hr, c, hc, hc1, hc2⟩
    exact ⟨hc1 ▸ hc, hc2 ▸ hr⟩
  · rintro ⟨h1, h2⟩
    exact ⟨row, h2, col, h1, rfl, rfl⟩

/-- Row-major indexing is injective on in-bounds columns. -/
lemma rowMajor_index_inj (width c1 r1 c2 r2 : Nat)
    (h1 : c1 < width) (h2 : c2 < width)
    (h : r1 * width + c1 = r2 * width + c2) : c1 = c2 ∧ r1 = r2 := by
  have e : c1 + r1 * width = c2 + r2 * width := by omega
  have hw : 0 < width := by omega
  have hm : c1 = c2 := by
    have hmod := congrArg (· % width) e
    simpa [Nat.add_mul_mod_self_right, Nat.mod_eq_of_lt h1, Nat.mod_eq_of_lt h2] using hmod
  refine ⟨hm, ?_⟩
  have hdiv := congrArg (· / width) e
  simp only [] at hdiv
  rw [Nat.add_mul_div_right _ _ hw, Nat.add_mul_div_right _ _ hw,
    Nat.div_eq_of_lt h1, Nat.div_eq_of_lt h2] at hdiv
  omega

/-- A row-major index of an in-bounds pixel is inside the buffer. -/
lemma rowMajor_index_lt (width height col row : Nat)
    (hc : col < width) (hr : row < height) :
    row * width + col < width * height := by
  calc row * width + col < row * width + width := by omega
    _ = (row + 1) * width := by ring
    _ ≤ height * width := Nat.mul_le_mul_right width (by omega)
    _ = width * height := Nat.mul_comm height width

/-- With a correctly sized buffer, `render` is the overwrite fold over the
row-major pixel list. -/
lemma render_eq_fold (pixels : List Nat) (width height : Nat) (corner : Corner)
    (hlen : pixels.length = width * height) :
    render pixels (width, height) corner =
      List.foldlM
        (fun px (p : Point) => setChecked px (p.2 * width + p.1)
          ((escape_time (pixel_to_point (width, height) corner p) 255).elim 0
            (fun count => (255 - count) % 256)))
        pixels (pixelList width height) := by
  unfold render
  rw [if_pos hlen]

/-- Characterization of `render` on a correctly sized buffer: it succeeds,
the length is preserved, and each in-bounds pixel slot holds the intensity
byte computed from its escape time. -/
lemma render_spec (width height : Nat) (corner : Corner) (pixels : List Nat)
    (hlen : pixels.length = width * height) :
    ∃ out, render pixels (width, height) corner = some out ∧
      out.length = width * height ∧
      ∀ col row, col < width → row < height →
        out.getD (row * width + col) 0 =
          (escape_time (pixel_to_point (width, height) corner (col, row)) 255).elim 0
            (fun count => (255 - count) % 256) := by
  have hbound : ∀ p ∈ pixelList width height,
      (fun (p : Point) => p.2 * width + p.1) p < pixels.length := by
    intro p hp
    obtain ⟨h1, h2⟩ := (mem_pixelList_iff width height p).mp hp
    rw [hlen]
    exact rowMajor_index_lt width height p.1 p.2 h1 h2
  obtain ⟨out, hfold, hlen2, hval⟩ :=
    foldlM_setChecked_spec (fun (p : Point) => p.2 * width + p.1)
      (fun p => (escape_time (pixel_to_point (width, height) corner p) 255).elim 0
        (fun count => (255 - count) % 256))
      (pixelList width height) pixels hbound
  refine ⟨out, ?_, by rw [hlen2, hlen], ?_⟩
  · rw [render_eq_fold pixels width height corner hlen]
    exact hfold
  · intro col row h1 h2
    rw [hval]
    apply foldl_pick_eq
    · exact ⟨(col, row), (mem_pixelList_iff _ _ _).mpr ⟨h1, h2⟩, rfl⟩
    · intro q hq hqi
      obtain ⟨hq1, hq2⟩ := (mem_pixelList_iff _ _ _).mp hq
      obtain ⟨e1, e2⟩ := rowMajor_index_inj width q.1 q.2 col row hq1 h1 hqi
      have hqe : q = (col, row) := by
        obtain ⟨qc, qr⟩ := q
        simp only [Prod.mk.injEq]
        exact ⟨e1, e2⟩
      rw [hqe]

/-! ### Claim theorems -/

/-- C1: for positive bounds, a valid plane region and a buffer of length
`width * height`, `render` succeeds and the byte at `row * width + col`
is `255 - count` when the pixel's point escapes at iteration `count`, and
`0` when it never escapes. -/
theorem render_writes_intensity (width height : Nat) (corner : Corner)
    (pixels : List Nat) (hw : 0 < width) (hh : 0 < height)
    (hvalid : corner.upper_left.re < corner.lower_right.re ∧
      corner.lower_right.im < corner.upper_left.im)
    (hlen : pixels.length = width * height)
    (col row : Nat) (hcol : col < width) (hrow : row < height) :
    ∃ out, render pixels (width, height) corner = some out ∧
      out.length = width * height ∧
      (∀ count,
        escape_time (pixel_to_point (width, height) corner (col, row)) 255 = some count →
          out.getD (row * width + col) 0 = 255 - count) ∧
      (escape_time (pixel_to_point (width, height) corner (col, row)) 255 = none →
        out.getD (row * width + col) 0 = 0) := by
  obtain ⟨out, h1, h2, h3⟩ := render_spec width height corner pixels hlen
  refine ⟨out, h1, h2, ?_, ?_⟩
  · intro count hesc
    rw [h3 col row hcol hrow, hesc]
    have hlt : count < 255 := escape_time_some_lt _ _ _ hesc
    show (255 - count) % 256 = 255 - count
    exact Nat.mod_eq_of_lt (by omega)
  · intro hesc
    rw [h3 col row hcol hrow, hesc]
    rfl

/-- C1 witness: instantiation on a 1×1 image over a valid region. -/
theorem render_writes_intensity_witness :
    ∃ out, render [0] (1, 1) corner0 = some out ∧
      out.length = 1 * 1 ∧
      (∀ count, escape_time (pixel_to_point (1, 1) corner0 (0, 0)) 255 = some count →
        out.getD (0 * 1 + 0) 0 = 255 - count) ∧
      (escape_time (pixel_to_point (1, 1) corner0 (0, 0)) 255 = none →
        out.getD (0 * 1 + 0) 0 = 0) :=
  render_writes_intensity 1 1 corner0 [0] (by decide) (by decide)
    (by constructor <;> norm_num [corner0]) rfl 0 0 (by decide) (by decide)

/-- C2: `escape_time c limit` returns `some k` iff `k` is the smallest
0-indexed iteration whose orbit element (after `k+1` applications of
`z ← z*z + c` from `z = 0`) has squared magnitude at least 4, with
`k < limit`; it returns `none` iff all `limit` iterations stay strictly
below 4. -/
theorem escape_time_iff_orbit (c : Complex) (limit k : Nat) :
    (escape_time c limit = some k ↔
      (k < limit ∧ 4 ≤ (zseq c (k + 1)).norm_sqr ∧
        ∀ j, j < k → (zseq c (j + 1)).norm_sqr < 4)) ∧
    (escape_time c limit = none ↔
      ∀ j, j < limit → (zseq c (j + 1)).norm_sqr < 4) :=
  ⟨escape_time_eq_some_iff c limit k, escape_time_eq_none_iff c limit⟩

/-- C2 witness: the origin never escapes within limit 1. -/
theorem escape_time_iff_orbit_witness : escape_time ⟨0, 0⟩ 1 = none := by
  refine ((escape_time_iff_orbit ⟨0, 0⟩ 1 0).2).mpr ?_
  intro j hj
  rw [zseq_origin, Complex.norm_sqr_mk]
  norm_num

/-- C5: the lazy `skip_while`/`take(1)`/`last()` form of the escape-time
evaluator is extensionally equal to the explicit bounded loop with early
return on escape. -/
theorem escape_time_eq_explicit_loop (c : Complex) (limit : Nat) :
    escape_time c limit = escape_time_loop c limit :=
  escape_time_eq_escape_time_loop c limit

/-- C4: `render` panics (returns `none`) exactly when the buffer length
differs from `width * height`; with a correctly sized buffer and positive
bounds it completes without a panic, and every index it writes is strictly
below the buffer length. -/
theorem render_buffer_contract (width height : Nat) (corner : Corner)
    (pixels : List Nat) :
    (pixels.length ≠ width * height → render pixels (width, height) corner = none) ∧
    (pixels.length = width * height → 0 < width → 0 < height →
      (∃ out, render pixels (width, height) corner = some out) ∧
      ∀ row col, row < height → col < width → row * width + col < pixels.length) := by
  constructor
  · intro hne
    unfold render
    rw [if_neg hne]
  · intro hlen _ _
    constructor
    · obtain ⟨out, h1, -, -⟩ := render_spec width height corner pixels hlen
      exact ⟨out, h1⟩
    · intro row col hr hc
      rw [hlen]
      exact rowMajor_index_lt width height col row hc hr

/-- C4 witness: a 2-byte buffer on a 1×1 image panics; a 1-byte buffer
succeeds and its single write index is in range. -/
theorem render_buffer_contract_witness :
    render [0, 0] (1, 1) corner0 = none ∧
      (∃ out, render [0] (1, 1) corner0 = some out) ∧
      0 * 1 + 0 < [0].length := by
  have h1 := (render_buffer_contract 1 1 corner0 [0, 0]).1 (by decide)
  have h2 := (render_buffer_contract 1 1 corner0 [0]).2 rfl (by decide) (by decide)
  exact ⟨h1, h2.1, h2.2 0 0 (by decide) (by decide)⟩

/-- C6: pixel `(0, 0)` maps exactly to the region's upper-left corner. -/
theorem pixel_to_point_zero_eq_upper_left (bounds : Point) (corner : Corner)
    (hw : 0 < bounds.1) (hh : 0 < bounds.2) :
    pixel_to_point bounds corner (0, 0) = corner.upper_left := by
  apply Complex.ext
  · rw [pixel_to_point_re]
    norm_num
  · rw [pixel_to_point_im]
    norm_num

/-- C6 witness: instantiation at a concrete positive bounds and region. -/
theorem pixel_to_point_zero_eq_upper_left_witness :
    pixel_to_point (1, 1) corner0 (0, 0) = corner0.upper_left :=
  pixel_to_point_zero_eq_upper_left (1, 1) corner0 (by decide) (by decide)

/-- C8 counterexample: with `limit = 0` the iterator `(0..0)` is empty, so
`escape_time(3 + 0i, 0)` is `none`, not `some 0` — the claim's "for every
limit" fails at `limit = 0`. -/
theorem escape_time_three_limit_zero_cex :
    ¬ (escape_time ⟨3, 0⟩ 0 = some 0) := by
  simp [escape_time, skipWhileStateful]

/-- C8 (amended): for every positive limit, `escape_time(3 + 0i, limit)`
escapes at iteration 0, since `|0*0 + 3| = 3 ≥ 2` on the first iteration. -/
theorem escape_time_three_escapes_immediately (limit : Nat) (h : 0 < limit) :
    escape_time ⟨3, 0⟩ limit = some 0 :=
  escape_time_three_pos limit h

/-- C8 witness: instantiation at the program's own limit 255. -/
theorem escape_time_three_escapes_immediately_witness :
    0 < 255 ∧ escape_time ⟨3, 0⟩ 255 = some 0 :=
  ⟨by decide, escape_time_three_escapes_immediately 255 (by decide)⟩

/-- C9: `render` is deterministic — with identical bounds and region, any
two correctly sized starting buffers end up byte-identical. -/
theorem render_deterministic (width height : Nat) (corner : Corner)
    (p1 p2 : List Nat) (h1 : p1.length = width * height)
    (h2 : p2.length = width * height) :
    render p1 (width, height) corner = render p2 (width, height) corner := by
  obtain ⟨o1, e1, l1, v1⟩ := render_spec width height corner p1 h1
  obtain ⟨o2, e2, l2, v2⟩ := render_spec width height corner p2 h2
  rw [e1, e2]
  have hlen : o1.length = o2.length := by rw [l1, l2]
  have hout : o1 = o2 := by
    apply List.ext_getElem hlen
    intro i hi1 hi2
    have hiwh : i < width * height := l1 ▸ hi1
    rcases Nat.eq_zero_or_pos width with hw0 | hw
    · rw [hw0] at hiwh
      simp at hiwh
    have hc : i % width < width := Nat.mod_lt i hw
    have hr : i / width < height := by
      rw [Nat.div_lt_iff_lt_mul hw]
      calc i < width * height := hiwh
        _ = height * width := Nat.mul_comm width height
    have hidx : (i / width) * width + i % width = i := by
      rw [Nat.mul_comm]
      exact Nat.div_add_mod i width
    have q1 := v1 (i % width) (i / width) hc hr
    have q2 := v2 (i % width) (i / width) hc hr
    rw [hidx] at q1 q2
    have g1 : o1.getD i 0 = o1[i] := by
      rw [List.getD_eq_getElem?_getD, List.getElem?_eq_getElem hi1]
      rfl
    have g2 : o2.getD i 0 = o2[i] := by
      rw [List.getD_eq_getElem?_getD, List.getElem?_eq_getElem hi2]
      rfl
    rw [← g1, ← g2, q1, q2]
  rw [hout]

/-- C9 witness: a 1×1 render from two different starting buffers. -/
theorem render_deterministic_witness :
    render [0] (1, 1) corner0 = render [7] (1, 1) corner0 :=
  render_deterministic 1 1 corner0 [0] [7] rfl rfl

/-- C10: an escape iteration is always strictly below the limit, so in
`render` (limit 255) the subtraction never underflows, the byte cast never
truncates, every escaped pixel's byte lies in `[1, 255]`, and the byte 0
is reserved for never-escaped points. -/
theorem escape_count_bounds (c : Complex) (limit k : Nat)
    (h : escape_time c limit = some k) :
    k < limit ∧
      (limit = 255 →
        (255 - k) % 256 = 255 - k ∧ 1 ≤ 255 - k ∧ 255 - k ≤ 255 ∧
          (escape_time c 255).elim 0 (fun count => (255 - count) % 256) = 255 - k ∧
          (escape_time c 255).elim 0 (fun count => (255 - count) % 256) ≠ 0) := by
  have hk : k < limit := escape_time_some_lt c limit k h
  refine ⟨hk, ?_⟩
  rintro rfl
  have hmod : (255 - k) % 256 = 255 - k := Nat.mod_eq_of_lt (by omega)
  have helim : (escape_time c 255).elim 0 (fun count => (255 - count) % 256) =
      (255 - k) % 256 := by
    rw [h]
    rfl
  refine ⟨hmod, by omega, by omega, ?_, ?_⟩
  · rw [helim, hmod]
  · rw [helim, hmod]
    omega

/-- C10 witness: instantiation at `c = 3 + 0i`, which escapes at 0. -/
theorem escape_count_bounds_witness :
    0 < 255 ∧ (255 - 0) % 256 = 255 - 0 ∧ 1 ≤ 255 - 0 ∧ 255 - 0 ≤ 255 ∧
      (escape_time ⟨3, 0⟩ 255).elim 0 (fun count => (255 - count) % 256) = 255 - 0 ∧
      (escape_time ⟨3, 0⟩ 255).elim 0 (fun count => (255 - count) % 256) ≠ 0 := by
  have h := escape_count_bounds ⟨3, 0⟩ 255 0 (escape_time_three_pos 255 (by decide))
  obtain ⟨h1, h2⟩ := h
  obtain ⟨a, b, c2, d, e⟩ := h2 rfl
  exact ⟨h1, a, b, c2, d, e⟩

end Mandelbrot
